import Mathlib

/-!
Verification of the Kamstrup 403 KMP client and polling coordinator.

Shallow embedding of `custom_components/kamstrup_403/kamstrup.py` and
`custom_components/kamstrup_403/coordinator.py`.

Bytes are modelled as `Nat` (the CRC and escaping logic only inspects bits
0–7 of each byte, exactly as the Python code does via masks), machine
integers as `Nat` with explicit masking, Python `float` arithmetic in the
value decoder as exact rationals `ℚ`, Python exceptions as `Except`/`Option`.
-/

namespace Kamstrup403

/-! ## CRC-16 (`Kamstrup._crc`)

Python source (kamstrup.py):
```
poly, reg = 0x1021, 0x0000
for byte in message:
    mask = 0x80
    while mask > 0:
        reg <<= 1
        if byte & mask:
            reg |= 1
        mask >>= 1
        if reg & 0x10000:
            reg &= 0xFFFF
            reg ^= poly
return reg
```
-/

/-- One iteration of the inner `while mask > 0` loop of `Kamstrup._crc`:
shift the register, bring in one message bit at the bottom, and reduce by
the polynomial on 17th-bit overflow.  `b` is `byte & mask != 0`. -/
def crcBit (reg : Nat) (b : Bool) : Nat :=
  let r := reg <<< 1
  let r := if b then r ||| 1 else r
  if r &&& 0x10000 ≠ 0 then (r &&& 0xFFFF) ^^^ 0x1021 else r

/-- The bits of one byte, most significant first, exactly the order the
`mask = 0x80 ... mask >>= 1` loop of `Kamstrup._crc` visits them
(`byte & mask != 0` is `Nat.testBit byte k` for `mask = 2^k`). -/
def byteBits (b : Nat) : List Bool :=
  [b.testBit 7, b.testBit 6, b.testBit 5, b.testBit 4,
   b.testBit 3, b.testBit 2, b.testBit 1, b.testBit 0]

/-- Processing of one message byte by `Kamstrup._crc`. -/
def crcByte (reg byte : Nat) : Nat :=
  (byteBits byte).foldl crcBit reg

/-- `Kamstrup._crc`: CCITT CRC-16, polynomial `0x1021`, register
initialised to `0x0000`, bytes processed MSB-first, no final XOR. -/
def crc (message : List Nat) : Nat :=
  message.foldl crcByte 0

/-! ### Arithmetic normal form of `crcBit` -/

theorem testBit_two_mul_add_toNat (r : Nat) (c : Bool) (i : Nat) :
    (2 * r + c.toNat).testBit i = if i = 0 then c else r.testBit (i - 1) := by
  cases i with
  | zero =>
    simp only [Nat.testBit_zero, if_pos rfl]
    cases c <;> simp <;> omega
  | succ i =>
    simp only [Nat.testBit_succ]
    have h2 : (2 * r + c.toNat) / 2 = r := by cases c <;> simp <;> omega
    simp [h2]

theorem shiftLeft_or_toNat (r : Nat) (c : Bool) :
    (r <<< 1) ||| c.toNat = 2 * r + c.toNat := by
  apply Nat.eq_of_testBit_eq
  intro i
  rw [testBit_two_mul_add_toNat]
  cases i with
  | zero =>
    have : (r <<< 1).testBit 0 = false := by
      simp [Nat.testBit_shiftLeft]
    cases c <;> simp [this, Nat.testBit_to_div_mod]
  | succ i =>
    have hsh : (r <<< 1).testBit (i + 1) = r.testBit i := by
      simp [Nat.testBit_shiftLeft]
    have hc : (c.toNat).testBit (i + 1) = false := by
      cases c
      · simp
      · simp only [Bool.toNat_true, Nat.testBit_to_div_mod]
        have h2 : 1 < 2 ^ (i + 1) := by
          calc 1 < 2 := one_lt_two
          _ ≤ 2 ^ (i + 1) := Nat.le_self_pow (Nat.succ_ne_zero i) 2
        simp [Nat.div_eq_of_lt h2]
    simp [hsh, hc]

/-- `crcBit` written without bitwise shifts: the register update is
`reduce (2·reg + bit)`. -/
theorem crcBit_eq (reg : Nat) (b : Bool) :
    crcBit reg b =
      (if (2 * reg + b.toNat) &&& 0x10000 ≠ 0
       then ((2 * reg + b.toNat) &&& 0xFFFF) ^^^ 0x1021
       else 2 * reg + b.toNat) := by
  unfold crcBit
  cases b with
  | false =>
    have h0 : reg <<< 1 = 2 * reg := by
      rw [Nat.shiftLeft_eq, pow_one, Nat.mul_comm]
    simp [h0]
  | true =>
    have h1 : (reg <<< 1) ||| 1 = 2 * reg + 1 := by
      simpa using shiftLeft_or_toNat reg true
    simp [h1]

/-- The two mask constants written as powers of two. -/
theorem const_pow : (0x10000 : Nat) = 2 ^ 16 ∧ (0xFFFF : Nat) = 2 ^ 16 - 1 := by
  constructor <;> norm_num

/-- The overflow test of `Kamstrup._crc` is the 17th bit of the register. -/
theorem and_overflow_eq (r : Nat) : (r &&& 0x10000 ≠ 0) ↔ r.testBit 16 = true := by
  have h := Nat.and_two_pow r 16
  have : (0x10000 : Nat) = 2 ^ 16 := by norm_num
  rw [this, h]
  cases hr : r.testBit 16 <;> simp

theorem and_mask_eq_mod (r : Nat) : r &&& 0xFFFF = r % 2 ^ 16 := by
  have : (0xFFFF : Nat) = 2 ^ 16 - 1 := by norm_num
  rw [this, Nat.and_pow_two_sub_one_eq_mod]

/-- The register stays a 16-bit value across `crcBit`. -/
theorem crcBit_lt (reg : Nat) (b : Bool) (h : reg < 2 ^ 16) :
    crcBit reg b < 2 ^ 16 := by
  rw [crcBit_eq]
  set u := 2 * reg + b.toNat with hu
  have hub : u < 2 ^ 17 := by
    have : b.toNat ≤ 1 := Bool.toNat_le b
    simp only [hu]; omega
  by_cases hov : u &&& 0x10000 ≠ 0
  · rw [if_pos hov, and_mask_eq_mod]
    exact Nat.xor_lt_two_pow (Nat.mod_lt _ (by norm_num)) (by norm_num)
  · rw [if_neg hov]
    rw [and_overflow_eq] at hov
    have h16 : u.testBit 16 = false := by
      cases h' : u.testBit 16
      · rfl
      · exact absurd h' (by simpa using hov)
    rw [Nat.testBit_to_div_mod] at h16
    simp only [decide_eq_false_iff_not] at h16
    have : (2:Nat) ^ 17 = 131072 := by norm_num
    rw [this] at hub
    have : (2:Nat) ^ 16 = 65536 := by norm_num
    rw [this]
    omega

/-! ### GF(2)-linearity of the CRC step -/

theorem two_mul_add_xor (r1 r2 : Nat) (c1 c2 : Bool) :
    (2 * r1 + c1.toNat) ^^^ (2 * r2 + c2.toNat) = 2 * (r1 ^^^ r2) + (c1.xor c2).toNat := by
  apply Nat.eq_of_testBit_eq
  intro i
  rw [Nat.testBit_xor, testBit_two_mul_add_toNat, testBit_two_mul_add_toNat,
    testBit_two_mul_add_toNat]
  by_cases h : i = 0
  · simp [h]
  · simp [h, Nat.testBit_xor]

theorem testBit16_xor (u1 u2 : Nat) :
    (u1 ^^^ u2).testBit 16 = ((u1.testBit 16) ^^ (u2.testBit 16)) :=
  Nat.testBit_xor u1 u2 16

/-- A 17-bit value whose 17th bit is clear fits in 16 bits. -/
theorem lt_two_pow_16_of_not_testBit {u : Nat} (hu : u < 2 ^ 17)
    (h : u.testBit 16 = false) : u < 2 ^ 16 := by
  rw [Nat.testBit_to_div_mod] at h
  simp only [decide_eq_false_iff_not] at h
  have h17 : (2:Nat) ^ 17 = 131072 := by norm_num
  have h16 : (2:Nat) ^ 16 = 65536 := by norm_num
  rw [h17] at hu
  rw [h16]
  omega

theorem and_mask_of_lt {u : Nat} (h : u < 2 ^ 16) : u &&& 0xFFFF = u := by
  rw [and_mask_eq_mod]
  exact Nat.mod_eq_of_lt h

theorem xor_xor_cancel (a b p : Nat) : (a ^^^ p) ^^^ (b ^^^ p) = a ^^^ b := by
  rw [Nat.xor_assoc]
  congr 1
  rw [Nat.xor_comm b p, ← Nat.xor_assoc, Nat.xor_self, Nat.zero_xor]

/-- The CRC bit step is GF(2)-linear in (register, input bit), for 16-bit
registers. -/
theorem crcBit_xor (r1 r2 : Nat) (c1 c2 : Bool)
    (h1 : r1 < 2 ^ 16) (h2 : r2 < 2 ^ 16) :
    crcBit (r1 ^^^ r2) (c1.xor c2) = crcBit r1 c1 ^^^ crcBit r2 c2 := by
  rw [crcBit_eq, crcBit_eq, crcBit_eq]
  set u1 := 2 * r1 + c1.toNat with hu1
  set u2 := 2 * r2 + c2.toNat with hu2
  have hx : 2 * (r1 ^^^ r2) + (c1.xor c2).toNat = u1 ^^^ u2 :=
    (two_mul_add_xor r1 r2 c1 c2).symm
  rw [hx]
  have hb1 : u1 < 2 ^ 17 := by
    have := Bool.toNat_le c1
    have := pow_succ 2 16
    simp only [hu1]; omega
  have hb2 : u2 < 2 ^ 17 := by
    have := Bool.toNat_le c2
    have := pow_succ 2 16
    simp only [hu2]; omega
  have hbx : u1 ^^^ u2 < 2 ^ 17 := Nat.xor_lt_two_pow hb1 hb2
  have hcond : ∀ u : Nat, (u &&& 0x10000 ≠ 0) = (u.testBit 16 = true) := by
    intro u
    apply propext
    exact and_overflow_eq u
  simp only [hcond, testBit16_xor]
  cases ht1 : u1.testBit 16 <;> cases ht2 : u2.testBit 16
  · -- neither side overflows
    simp
  · -- only the second side overflows
    have e1 : u1 &&& 0xFFFF = u1 := and_mask_of_lt (lt_two_pow_16_of_not_testBit hb1 ht1)
    rw [if_pos (show ((false ^^ true) = true) from rfl),
      if_neg (show ¬((false : Bool) = true) from by simp),
      if_pos (show ((true : Bool) = true) from rfl),
      Nat.and_xor_distrib_right, e1, Nat.xor_assoc]
  · -- only the first side overflows
    have e2 : u2 &&& 0xFFFF = u2 := and_mask_of_lt (lt_two_pow_16_of_not_testBit hb2 ht2)
    rw [if_pos (show ((true ^^ false) = true) from rfl),
      if_pos (show ((true : Bool) = true) from rfl),
      if_neg (show ¬((false : Bool) = true) from by simp),
      Nat.and_xor_distrib_right, e2, Nat.xor_assoc, Nat.xor_comm u2 0x1021,
      ← Nat.xor_assoc]
  · -- both sides overflow, the polynomial contributions cancel
    have hx16 : (u1 ^^^ u2).testBit 16 = false := by
      rw [testBit16_xor, ht1, ht2]; rfl
    have hxlt : u1 ^^^ u2 < 2 ^ 16 := lt_two_pow_16_of_not_testBit hbx hx16
    rw [if_neg (show ¬((true ^^ true) = true) from by simp),
      if_pos (show ((true : Bool) = true) from rfl),
      if_pos (show ((true : Bool) = true) from rfl),
      xor_xor_cancel, ← Nat.and_xor_distrib_right, and_mask_of_lt hxlt]

/-! ### Lifting linearity to bytes and byte lists -/

theorem foldl_crcBit_lt : ∀ (bs : List Bool) (reg : Nat), reg < 2 ^ 16 →
    bs.foldl crcBit reg < 2 ^ 16
  | [], reg, h => h
  | b :: bs, reg, h => foldl_crcBit_lt bs (crcBit reg b) (crcBit_lt reg b h)

theorem crcByte_lt (reg byte : Nat) (h : reg < 2 ^ 16) : crcByte reg byte < 2 ^ 16 :=
  foldl_crcBit_lt _ reg h

theorem foldl_crcByte_lt : ∀ (m : List Nat) (reg : Nat), reg < 2 ^ 16 →
    m.foldl crcByte reg < 2 ^ 16
  | [], _, h => h
  | b :: m, reg, h => foldl_crcByte_lt m (crcByte reg b) (crcByte_lt reg b h)

/-- The CRC register is always a 16-bit value. -/
theorem crc_lt (m : List Nat) : crc m < 2 ^ 16 :=
  foldl_crcByte_lt m 0 (by norm_num)

theorem foldl_crcBit_xor : ∀ (bs1 bs2 : List Bool) (r1 r2 : Nat),
    bs1.length = bs2.length → r1 < 2 ^ 16 → r2 < 2 ^ 16 →
    (List.zipWith Bool.xor bs1 bs2).foldl crcBit (r1 ^^^ r2) =
      bs1.foldl crcBit r1 ^^^ bs2.foldl crcBit r2 := by
  intro bs1
  induction bs1 with
  | nil =>
    intro bs2 r1 r2 hlen _ _
    cases bs2 with
    | nil => rfl
    | cons b bs => simp at hlen
  | cons a bs ih =>
    intro bs2 r1 r2 hlen h1 h2
    cases bs2 with
    | nil => simp at hlen
    | cons b bs' =>
      simp only [List.zipWith_cons_cons, List.foldl_cons]
      rw [crcBit_xor r1 r2 a b h1 h2]
      exact ih bs' (crcBit r1 a) (crcBit r2 b) (by simpa using hlen)
        (crcBit_lt r1 a h1) (crcBit_lt r2 b h2)

/-- `byteBits` commutes with byte-level XOR. -/
theorem byteBits_xor (b1 b2 : Nat) :
    byteBits (b1 ^^^ b2) = List.zipWith Bool.xor (byteBits b1) (byteBits b2) := by
  have hbit : ∀ i, (b1 ^^^ b2).testBit i = ((b1.testBit i) ^^ (b2.testBit i)) :=
    fun i => Nat.testBit_xor b1 b2 i
  simp only [byteBits, hbit]
  rfl

/-- The per-byte CRC step is GF(2)-linear. -/
theorem crcByte_xor (r1 r2 b1 b2 : Nat) (h1 : r1 < 2 ^ 16) (h2 : r2 < 2 ^ 16) :
    crcByte (r1 ^^^ r2) (b1 ^^^ b2) = crcByte r1 b1 ^^^ crcByte r2 b2 := by
  unfold crcByte
  rw [byteBits_xor]
  exact foldl_crcBit_xor (byteBits b1) (byteBits b2) r1 r2 rfl h1 h2

/-- The CRC of the byte-wise XOR of two equal-length messages, from the
XOR of two 16-bit start registers. -/
theorem foldl_crcByte_xor : ∀ (m1 m2 : List Nat) (r1 r2 : Nat),
    m1.length = m2.length → r1 < 2 ^ 16 → r2 < 2 ^ 16 →
    (List.zipWith HXor.hXor m1 m2).foldl crcByte (r1 ^^^ r2) =
      m1.foldl crcByte r1 ^^^ m2.foldl crcByte r2 := by
  intro m1
  induction m1 with
  | nil =>
    intro m2 r1 r2 hlen _ _
    cases m2 with
    | nil => rfl
    | cons b bs => simp at hlen
  | cons a m ih =>
    intro m2 r1 r2 hlen h1 h2
    cases m2 with
    | nil => simp at hlen
    | cons b m' =>
      simp only [List.zipWith_cons_cons, List.foldl_cons]
      rw [crcByte_xor r1 r2 a b h1 h2]
      exact ih m' (crcByte r1 a) (crcByte r2 b) (by simpa using hlen)
        (crcByte_lt r1 a h1) (crcByte_lt r2 b h2)

/-- CRC over equal-length byte-wise XORed messages is the XOR of the CRCs. -/
theorem crc_zipWith_xor (m1 m2 : List Nat) (hlen : m1.length = m2.length) :
    crc (List.zipWith HXor.hXor m1 m2) = crc m1 ^^^ crc m2 := by
  unfold crc
  have h0 : (0 : Nat) = 0 ^^^ 0 := rfl
  rw [h0] at *
  exact foldl_crcByte_xor m1 m2 0 0 hlen (by norm_num) (by norm_num)

/-! ### The CRC of a 16-bit value's own big-endian bytes -/

theorem and_overflow_zero {u : Nat} (h : u < 2 ^ 16) : u &&& 0x10000 = 0 := by
  have h16 : (0x10000 : Nat) = 2 ^ 16 := by norm_num
  rw [h16, Nat.and_two_pow]
  have ht : u.testBit 16 = false := by
    rw [Nat.testBit_to_div_mod]
    have hd : u / 2 ^ 16 = 0 := Nat.div_eq_of_lt h
    norm_num at hd
    simp [hd]
  simp [ht]

/-- While the register stays below `2^16`, a CRC bit step is a plain
shift-and-add: no polynomial reduction happens. -/
theorem crcBit_small (reg : Nat) (b : Bool) (h : 2 * reg + b.toNat < 2 ^ 16) :
    crcBit reg b = 2 * reg + b.toNat := by
  rw [crcBit_eq, if_neg]
  simp only [ne_eq, not_not]
  exact and_overflow_zero h

theorem foldl_crcBit_acc : ∀ (bs : List Bool) (reg : Nat),
    (reg + 1) * 2 ^ bs.length ≤ 2 ^ 16 →
    bs.foldl crcBit reg = bs.foldl (fun a b => 2 * a + b.toNat) reg := by
  intro bs
  induction bs with
  | nil => intro reg _; rfl
  | cons b bs ih =>
    intro reg h
    have h1 : 1 ≤ 2 ^ bs.length := Nat.one_le_two_pow
    have e1 : (reg + 1) * 2 ^ (b :: bs).length = (2 * (reg + 1)) * 2 ^ bs.length := by
      simp only [List.length_cons, pow_succ]
      ring
    rw [e1] at h
    have ht := Bool.toNat_le b
    have h2 : 2 * (reg + 1) ≤ 2 * (reg + 1) * 2 ^ bs.length :=
      Nat.le_mul_of_pos_right _ (Nat.pos_of_ne_zero (by positivity))
    have hbound : 2 * reg + b.toNat < 2 ^ 16 := by omega
    simp only [List.foldl_cons]
    rw [crcBit_small reg b hbound]
    apply ih
    calc (2 * reg + b.toNat + 1) * 2 ^ bs.length
        ≤ (2 * (reg + 1)) * 2 ^ bs.length := by
          apply Nat.mul_le_mul_right
          omega
      _ ≤ 2 ^ 16 := h

theorem foldl_acc_byteBits (reg byte : Nat) :
    (byteBits byte).foldl (fun a b => 2 * a + b.toNat) reg = reg * 256 + byte % 256 := by
  simp only [byteBits, List.foldl_cons, List.foldl_nil, Nat.toNat_testBit]
  norm_num
  omega

/-- For a register below `2^8`, a CRC byte step just shifts the register up
by a byte and brings the low 8 bits of the message byte in. -/
theorem crcByte_acc (reg byte : Nat) (h : reg < 256) :
    crcByte reg byte = reg * 256 + byte % 256 := by
  unfold crcByte
  rw [foldl_crcBit_acc, foldl_acc_byteBits]
  have : (byteBits byte).length = 8 := rfl
  rw [this]
  norm_num
  omega

/-- Feeding a 16-bit value's two big-endian bytes into a zeroed CRC
register reproduces the value itself. -/
theorem crc_own_bytes (c : Nat) (h : c < 2 ^ 16) :
    crcByte (crcByte 0 (c >>> 8)) (c &&& 0xFF) = c := by
  have hh : c >>> 8 = c / 256 := by
    rw [Nat.shiftRight_eq_div_pow]
  have hl : c &&& 0xFF = c % 256 := by
    have e : (0xFF : Nat) = 2 ^ 8 - 1 := by norm_num
    rw [e, Nat.and_pow_two_sub_one_eq_mod]
  have h16 : (2:Nat) ^ 16 = 65536 := by norm_num
  rw [h16] at h
  have hdiv : c / 256 < 256 := by omega
  rw [hh, hl, crcByte_acc 0 (c / 256) (by norm_num), Nat.zero_mul, Nat.zero_add,
    Nat.mod_eq_of_lt hdiv, crcByte_acc (c / 256) (c % 256) hdiv]
  omega

/-! ### CRC of all-zero messages -/

theorem crc_replicate_zero : ∀ n : Nat, (List.replicate n 0).foldl crcByte 0 = 0 := by
  intro n
  induction n with
  | zero => rfl
  | succ n ih =>
    rw [List.replicate_succ, List.foldl_cons, crcByte_acc 0 0 (by norm_num)]
    simpa using ih

/-- A nonzero 16-bit register stays nonzero across a zero input bit:
either it just doubles, or it is reduced by the (odd) polynomial, which
cannot produce zero from an even shifted value. -/
theorem crcBit_false_ne (r : Nat) (hlt : r < 2 ^ 16) (hne : r ≠ 0) :
    crcBit r false ≠ 0 ∧ crcBit r false < 2 ^ 16 := by
  refine ⟨?_, crcBit_lt r false hlt⟩
  rw [crcBit_eq]
  simp only [Bool.toNat_false, Nat.add_zero]
  by_cases hov : (2 * r) &&& 0x10000 ≠ 0
  · rw [if_pos hov]
    intro hc
    have heq : (2 * r) &&& 0xFFFF = 0x1021 := by
      have := Nat.xor_eq_zero.mp hc
      exact this
    rw [and_mask_eq_mod] at heq
    have h16 : (2:Nat) ^ 16 = 65536 := by norm_num
    rw [h16] at heq
    omega
  · rw [if_neg hov]
    omega

theorem foldl_crcBit_false_ne : ∀ (n : Nat) (r : Nat), r < 2 ^ 16 → r ≠ 0 →
    (List.replicate n false).foldl crcBit r ≠ 0 ∧
      (List.replicate n false).foldl crcBit r < 2 ^ 16 := by
  intro n
  induction n with
  | zero => intro r hlt hne; exact ⟨hne, hlt⟩
  | succ n ih =>
    intro r hlt hne
    rw [List.replicate_succ, List.foldl_cons]
    obtain ⟨h1, h2⟩ := crcBit_false_ne r hlt hne
    exact ih (crcBit r false) h2 h1

theorem byteBits_zero : byteBits 0 = List.replicate 8 false := by
  simp [byteBits]

/-- A zero message byte cannot drive a nonzero CRC register back to zero. -/
theorem crcByte_zero_ne (r : Nat) (hlt : r < 2 ^ 16) (hne : r ≠ 0) :
    crcByte r 0 ≠ 0 ∧ crcByte r 0 < 2 ^ 16 := by
  unfold crcByte
  rw [byteBits_zero]
  exact foldl_crcBit_false_ne 8 r hlt hne

theorem foldl_crcByte_zero_ne : ∀ (n : Nat) (r : Nat), r < 2 ^ 16 → r ≠ 0 →
    (List.replicate n 0).foldl crcByte r ≠ 0 := by
  intro n
  induction n with
  | zero => intro r _ hne; exact hne
  | succ n ih =>
    intro r hlt hne
    rw [List.replicate_succ, List.foldl_cons]
    obtain ⟨h1, h2⟩ := crcByte_zero_ne r hlt hne
    exact ih (crcByte r 0) h2 h1

/-! ### `Kamstrup._send`: checksum placement -/

/-- The logical checksummed message built by `Kamstrup._send`:
```
msg = bytearray(message) + b"\x00\x00"
crc = self._crc(bytes(msg))
msg[-2], msg[-1] = crc >> 8, crc & 0xFF
```
i.e. the message with the CRC over `message ++ [0,0]` appended
high byte first. -/
def sendChecksummed (message : List Nat) : List Nat :=
  let c := crc (message ++ [0x00, 0x00])
  message ++ [c >>> 8, c &&& 0xFF]

theorem zipWith_xor_self_zero : ∀ xs : List Nat,
    List.zipWith HXor.hXor xs (List.replicate xs.length 0) = xs := by
  intro xs
  induction xs with
  | nil => rfl
  | cons x xs ih =>
    simp only [List.length_cons, List.replicate_succ, List.zipWith_cons_cons, Nat.xor_zero]
    rw [ih]

theorem zipWith_xor_self : ∀ xs : List Nat,
    List.zipWith HXor.hXor xs xs = List.replicate xs.length 0 := by
  intro xs
  induction xs with
  | nil => rfl
  | cons x xs ih =>
    simp only [List.zipWith_cons_cons, Nat.xor_self, List.length_cons, List.replicate_succ]
    rw [ih]

/-- Core of claim C1: the checksummed message `Kamstrup._send` builds
recomputes to CRC zero. -/
theorem crc_sendChecksummed (m : List Nat) : crc (sendChecksummed m) = 0 := by
  show crc (m ++ [crc (m ++ [0x00, 0x00]) >>> 8, crc (m ++ [0x00, 0x00]) &&& 0xFF]) = 0
  set c := crc (m ++ [0x00, 0x00]) with hc
  have hclt : c < 2 ^ 16 := crc_lt _
  have hzip : List.zipWith HXor.hXor (m ++ [0x00, 0x00])
      (List.replicate m.length 0 ++ [c >>> 8, c &&& 0xFF]) =
      m ++ [c >>> 8, c &&& 0xFF] := by
    rw [List.zipWith_append _ _ _ _ _ (by simp)]
    rw [zipWith_xor_self_zero m]
    simp
  rw [← hzip, crc_zipWith_xor _ _ (by simp)]
  have h2 : crc (List.replicate m.length 0 ++ [c >>> 8, c &&& 0xFF]) = c := by
    unfold crc
    rw [List.foldl_append, crc_replicate_zero]
    simp only [List.foldl_cons, List.foldl_nil]
    exact crc_own_bytes c hclt
  rw [h2, ← hc, Nat.xor_self]

/-! ## Escaping (`Kamstrup._send` / `Kamstrup._receive`) -/

/-- Modelled from the spec: `const.py` (which defines `ESCAPES`) is not
among the sources under verification; per the spec the reserved/escaped
byte set is at least `0x06, 0x0D, 0x1B, 0x40, 0x80`, which is what we
take it to be. -/
def ESCAPES : List Nat := [0x06, 0x0D, 0x1B, 0x40, 0x80]

/-- The byte-stuffing loop of `Kamstrup._send`:
```
for b in msg:
    if b in ESCAPES:
        data.extend([0x1B, b ^ 0xFF])
    else:
        data.append(b)
```
-/
def escapeBytes : List Nat → List Nat
  | [] => []
  | b :: rest =>
    if b ∈ ESCAPES then 0x1B :: (b ^^^ 0xFF) :: escapeBytes rest
    else b :: escapeBytes rest

/-- The un-escaping loop of `Kamstrup._receive`, as a function of the
buffer suffix `buf[i:]`; the loop runs while `i < len(buf) - 1`, so it
stops as soon as at most one byte (the end marker) remains:
```
result, i = bytearray(), 1
while i < len(buf) - 1:
    if buf[i] == 0x1B:
        result.append(buf[i + 1] ^ 0xFF)
        i += 2
    else:
        result.append(buf[i])
        i += 1
```
-/
def unescapeLoop : List Nat → List Nat
  | [] => []
  | [_] => []
  | b :: c :: rest =>
    if b = 0x1B then (c ^^^ 0xFF) :: unescapeLoop rest
    else b :: unescapeLoop (c :: rest)

theorem unescapeLoop_cons_ne (b : Nat) (xs : List Nat) (hb : b ≠ 0x1B)
    (hxs : xs ≠ []) : unescapeLoop (b :: xs) = b :: unescapeLoop xs := by
  cases xs with
  | nil => exact absurd rfl hxs
  | cons c rest =>
    show (if b = 0x1B then (c ^^^ 0xFF) :: unescapeLoop rest
      else b :: unescapeLoop (c :: rest)) = _
    rw [if_neg hb]

theorem xor_ff_cancel (b : Nat) : (b ^^^ 0xFF) ^^^ 0xFF = b := by
  rw [Nat.xor_assoc, Nat.xor_self, Nat.xor_zero]

/-- Core of claim C3: escaping as `_send` does, then un-escaping the frame
interior as `_receive` does (the trailing end marker is present but never
consumed as data), reproduces the original bytes. -/
theorem escape_unescape (m : List Nat) :
    unescapeLoop (escapeBytes m ++ [0x0D]) = m := by
  induction m with
  | nil => rfl
  | cons b rest ih =>
    by_cases hb : b ∈ ESCAPES
    · show unescapeLoop ((if b ∈ ESCAPES then 0x1B :: (b ^^^ 0xFF) :: escapeBytes rest
        else b :: escapeBytes rest) ++ [0x0D]) = b :: rest
      rw [if_pos hb]
      show (if (0x1B : Nat) = 0x1B then
          ((b ^^^ 0xFF) ^^^ 0xFF) :: unescapeLoop (escapeBytes rest ++ [0x0D])
        else _) = b :: rest
      rw [if_pos rfl, xor_ff_cancel, ih]
    · have hb27 : b ≠ 0x1B := by
        intro h
        exact hb (h ▸ (by decide : (0x1B : Nat) ∈ ESCAPES))
      show unescapeLoop ((if b ∈ ESCAPES then 0x1B :: (b ^^^ 0xFF) :: escapeBytes rest
        else b :: escapeBytes rest) ++ [0x0D]) = b :: rest
      rw [if_neg hb, List.cons_append,
        unescapeLoop_cons_ne b _ hb27 (by simp), ih]

/-! ## Frame decoding (`Kamstrup._receive`) -/

/-- The decoding tail of `Kamstrup._receive`, applied to a fully buffered
frame `buf` (running from the `0x40` start marker up to and including the
`0x0D` end marker):
```
if self._crc(bytes(result)):
    _LOGGER.debug("CRC error")
    return None
return result[:-2]
```
where `result` is the un-escaped interior (`result[:-2]` drops the two
trailing checksum bytes). -/
def receiveDecode (buf : List Nat) : Option (List Nat) :=
  let result := unescapeLoop (buf.drop 1)
  if crc result ≠ 0 then none
  else some (result.take (result.length - 2))

/-- A response frame as the meter encodes it: `0x40` start marker, escaped
checksummed payload, `0x0D` end marker. -/
def responseFrame (payload : List Nat) : List Nat :=
  0x40 :: (escapeBytes payload ++ [0x0D])

/-- Single-bit corruption: byte `i` of the sequence gets bit `k` flipped. -/
def flipBit (xs : List Nat) (i k : Nat) : List Nat :=
  xs.set i (xs.getD i 0 ^^^ (1 <<< k))

theorem receiveDecode_frame (p : List Nat) :
    receiveDecode (responseFrame p) =
      if crc p ≠ 0 then none else some (p.take (p.length - 2)) := by
  unfold receiveDecode responseFrame
  rw [List.drop_one]
  simp only [List.tail_cons, escape_unescape p]

/-- Flipping bit `k < 8` of any byte of a message with CRC zero yields a
message with nonzero CRC. -/
theorem crc_flip_ne (p : List Nat) (i k : Nat) (hi : i < p.length) (hk : k < 8)
    (h0 : crc p = 0) : crc (flipBit p i k) ≠ 0 := by
  have hpow : (1 : Nat) <<< k = 2 ^ k := by
    rw [Nat.shiftLeft_eq, Nat.one_mul]
  have hk256 : 2 ^ k < 256 := by
    calc 2 ^ k ≤ 2 ^ 7 := Nat.pow_le_pow_right (by norm_num) (by omega)
    _ < 256 := by norm_num
  have hgetd : p.getD i 0 = p[i] := by
    rw [List.getD_eq_getElem?_getD, List.getElem?_eq_getElem hi]
    rfl
  have hsplit : p = p.take i ++ p[i] :: p.drop (i + 1) := by
    conv_lhs => rw [← List.take_append_drop i p]
    rw [List.drop_eq_getElem_cons hi]
  have hflip : flipBit p i k = p.take i ++ (p[i] ^^^ 2 ^ k) :: p.drop (i + 1) := by
    unfold flipBit
    rw [hgetd, hpow, List.set_eq_take_cons_drop _ hi]
  have hrlt : (p.take i).foldl crcByte 0 < 2 ^ 16 :=
    foldl_crcByte_lt _ 0 (by norm_num)
  have hcrc : ∀ x : Nat, crc (p.take i ++ x :: p.drop (i + 1)) =
      (p.drop (i + 1)).foldl crcByte (crcByte ((p.take i).foldl crcByte 0) x) := by
    intro x
    unfold crc
    rw [List.foldl_append, List.foldl_cons]
  have hxor : crcByte ((p.take i).foldl crcByte 0) (p[i] ^^^ 2 ^ k) ^^^
      crcByte ((p.take i).foldl crcByte 0) p[i] = 2 ^ k := by
    have hlin := crcByte_xor _ _ (p[i] ^^^ 2 ^ k) p[i] hrlt hrlt
    rw [Nat.xor_self] at hlin
    have harg : (p[i] ^^^ 2 ^ k) ^^^ p[i] = 2 ^ k := by
      rw [Nat.xor_comm p[i] (2 ^ k), Nat.xor_assoc, Nat.xor_self, Nat.xor_zero]
    rw [harg] at hlin
    rw [← hlin, crcByte_acc 0 (2 ^ k) (by norm_num), Nat.zero_mul, Nat.zero_add,
      Nat.mod_eq_of_lt hk256]
  have hcp : crc p =
      (p.drop (i + 1)).foldl crcByte
        (crcByte ((p.take i).foldl crcByte 0) p[i]) := by
    conv_lhs => rw [hsplit]
    exact hcrc p[i]
  have hdiff : crc (flipBit p i k) ^^^ crc p =
      (List.replicate (p.drop (i + 1)).length 0).foldl crcByte
        (crcByte ((p.take i).foldl crcByte 0) (p[i] ^^^ 2 ^ k) ^^^
          crcByte ((p.take i).foldl crcByte 0) p[i]) := by
    rw [hflip, hcrc, hcp, ← foldl_crcByte_xor _ _ _ _ rfl
      (crcByte_lt _ _ hrlt) (crcByte_lt _ _ hrlt), zipWith_xor_self]
  rw [h0, Nat.xor_zero] at hdiff
  rw [hdiff, hxor]
  exact foldl_crcByte_zero_ne (p.drop (i + 1)).length (2 ^ k)
    (by calc (2:Nat) ^ k < 256 := hk256
        _ < 2 ^ 16 := by norm_num)
    (Nat.pos_iff_ne_zero.mp (Nat.pos_pow_of_pos k (by norm_num)))

/-! ## Claims C1, C2, C3 -/

/-- C1: for every byte sequence `m` (the logical request payload),
computing the CRC-16 (polynomial `0x1021`, register initialised to
`0x0000`, each byte processed most-significant-bit-first, XOR of the
polynomial on 17th-bit overflow, no final XOR, no reflection) over `m`
followed by two `0x00` placeholder bytes, then overwriting those two
placeholders with the checksum high byte first (as `_send` does), yields
a sequence over which recomputing the same CRC-16 gives exactly `0` (the
acceptance condition `_receive` checks). -/
theorem c1_crc_roundtrip (m : List Nat) : crc (sendChecksummed m) = 0 :=
  crc_sendChecksummed m

/-- C3: escaping a byte sequence as `_send` does (each byte in the
reserved escape set `0x06, 0x0D, 0x1B, 0x40, 0x80` replaced by the escape
marker `0x1B` followed by that byte XOR `0xFF`, all other bytes passed
through) and then un-escaping the result as `_receive` does (each
`0x1B`-followed-by-`b` pair replaced by `b` XOR `0xFF`, scanning the frame
interior up to the end marker) reproduces the original byte sequence
exactly. -/
theorem c3_escape_roundtrip (m : List Nat) :
    unescapeLoop (escapeBytes m ++ [0x0D]) = m :=
  escape_unescape m

/-- C2: a received frame whose un-escaped contents recompute to a nonzero
CRC-16 makes `_receive` return no payload; and for every valid encoded
frame (which decodes to exactly its payload), flipping any single bit of
any of its checksummed payload bytes causes decoding to report no
response, never a different decoded payload. -/
theorem c2_crc_rejects_corruption :
    (∀ buf : List Nat, crc (unescapeLoop (buf.drop 1)) ≠ 0 → receiveDecode buf = none) ∧
    (∀ (m : List Nat) (i k : Nat), i < (sendChecksummed m).length → k < 8 →
      receiveDecode (responseFrame (sendChecksummed m)) = some m ∧
      receiveDecode (responseFrame (flipBit (sendChecksummed m) i k)) = none) := by
  constructor
  · intro buf h
    simp only [receiveDecode]
    rw [if_pos h]
  · intro m i k hi hk
    constructor
    · rw [receiveDecode_frame, if_neg (by simp [crc_sendChecksummed m])]
      congr 1
      have hsc : sendChecksummed m =
          m ++ [crc (m ++ [0x00, 0x00]) >>> 8, crc (m ++ [0x00, 0x00]) &&& 0xFF] := rfl
      rw [hsc]
      apply List.take_left'
      simp
    · rw [receiveDecode_frame,
        if_pos (crc_flip_ne _ i k hi hk (crc_sendChecksummed m))]

/-- Witness for C2 at concrete inputs: a three-byte frame whose interior
fails the CRC check decodes to nothing; the frame for payload `[0x3F]`
decodes back to `[0x3F]`, and flipping bit 0 of its first byte makes it
decode to nothing. -/
theorem c2_witness :
    receiveDecode [0x40, 0x21, 0x0D] = none ∧
    (receiveDecode (responseFrame (sendChecksummed [0x3F])) = some [0x3F] ∧
      receiveDecode (responseFrame (flipBit (sendChecksummed [0x3F]) 0 0)) = none) :=
  ⟨c2_crc_rejects_corruption.1 [0x40, 0x21, 0x0D] (by decide),
   c2_crc_rejects_corruption.2 [0x3F] 0 0 (by decide) (by decide)⟩

/-! ## Value decoding (`Kamstrup._decode_value`) -/

/-- Modelled from the spec: `const.py` (which defines the `UNITS` table)
is not among the sources under verification; the spec describes it only as
a fixed byte-to-unit-tag table whose lookup yields an absent unit for
unrecognised bytes.  No claim under verification depends on the table's
contents, so a small fixed table carrying the spec's example unit stands
in for it. -/
def UNITS : List (Nat × String) := [(0x02, "Wh"), (0x16, "m3")]

/-- `Kamstrup._decode_value`:
```
unit = UNITS.get(data[2])
value = 0.0
for i in range(data[3]):
    value = value * 256 + data[i + 5]
exp_val = data[4] & 0x3F
if data[4] & 0x40:
    exp_val = -exp_val
exp = math.pow(10, exp_val)
if data[4] & 0x80:
    exp = -exp
return value * exp, unit
```
Python float arithmetic is modelled as exact rationals; an out-of-range
index (Python `IndexError`) is modelled as `none`. -/
def decode_value (data : List Nat) : Option (ℚ × Option String) := do
  let unitByte ← data[2]?
  let len ← data[3]?
  let expByte ← data[4]?
  let mantissa : List Nat ← (List.range len).mapM (fun i => data[i + 5]?)
  let value : ℚ := mantissa.foldl (fun (v : ℚ) (b : Nat) => v * 256 + (b : ℚ)) 0
  let expVal : ℤ :=
    if expByte &&& 0x40 ≠ 0 then -(expByte &&& 0x3F : ℕ) else (expByte &&& 0x3F : ℕ)
  let exp : ℚ := if expByte &&& 0x80 ≠ 0 then -((10 : ℚ) ^ expVal) else (10 : ℚ) ^ expVal
  return (value * exp, UNITS.lookup unitByte)

/-- The spec's mantissa reading: unsigned big-endian accumulation
(`value = value*256 + byte`) over the mantissa bytes, as a natural
number. -/
def beNat (bytes : List Nat) : Nat :=
  bytes.foldl (fun v b => v * 256 + b) 0

/-- The spec's signed exponent of an exponent byte: bits 0–5 are the
magnitude, bit 6 (`0x40`) negates the exponent. -/
def specExponent (e : Nat) : ℤ :=
  if e &&& 0x40 ≠ 0 then -(e &&& 0x3F : ℕ) else (e &&& 0x3F : ℕ)

/-- The spec's scale sign of an exponent byte: `-1` exactly when bit 7
(`0x80`) is set. -/
def specSign (e : Nat) : ℚ :=
  if e &&& 0x80 ≠ 0 then -1 else 1

theorem getD_some {l : List Nat} {n : Nat} (h : n < l.length) :
    l[n]? = some (l.getD n 0) := by
  rw [List.getElem?_eq_getElem h, List.getD_eq_getElem?_getD,
    List.getElem?_eq_getElem h]
  rfl

theorem mapM_getElem_range : ∀ (L s : Nat) (data : List Nat),
    s + L ≤ data.length →
    (List.range L).mapM (fun i => data[i + s]?) = some ((data.drop s).take L) := by
  intro L
  induction L with
  | zero => intro s data h; rfl
  | succ L ih =>
    intro s data h
    rw [List.range_succ, List.mapM_append, ih s data (by omega)]
    have hidx : L + s < data.length := by omega
    have hone : List.mapM (fun i => data[i + s]?) [L] = some [data[L + s]] := by
      simp [List.mapM.loop, List.getElem?_eq_getElem hidx]
    rw [hone]
    have htake : (data.drop s).take (L + 1) = (data.drop s).take L ++ [data[L + s]] := by
      rw [List.take_succ]
      congr 1
      rw [List.getElem?_drop, Nat.add_comm s L, List.getElem?_eq_getElem hidx]
      rfl
    rw [htake]
    rfl

theorem foldl_q_beNat : ∀ (bs : List Nat) (a : Nat),
    bs.foldl (fun (v : ℚ) (b : Nat) => v * 256 + (b : ℚ)) (a : ℚ) =
      ((bs.foldl (fun v b => v * 256 + b) a : Nat) : ℚ) := by
  intro bs
  induction bs with
  | nil => intro a; rfl
  | cons b bs ih =>
    intro a
    simp only [List.foldl_cons]
    have hacc : (a : ℚ) * 256 + (b : ℚ) = ((a * 256 + b : ℕ) : ℚ) := by
      push_cast
      ring
    rw [hacc, ih]

/-- C4: for every register record whose length byte (offset 3) is `L` and
whose mantissa bytes are the `L` bytes from offset 5, `_decode_value`
returns the value `M * 10^e * s`, where `M` is the unsigned big-endian
accumulation of the `L` mantissa bytes (`value = value*256 + byte`), `e`
is the exponent byte's bits 0–5 negated exactly when bit `0x40` is set,
and `s` is `-1` exactly when bit `0x80` is set (else `+1`); the exponent
sign and the scale sign act independently (the scale sign flips the
multiplier after exponentiation, the exponent sign flips the exponent
before exponentiation).  The unit is the `UNITS` lookup of byte 2. -/
theorem c4_decode_value (data : List Nat) (L : Nat)
    (hL : data[3]? = some L) (hlen : 5 + L ≤ data.length) :
    decode_value data = some
      ((beNat ((data.drop 5).take L) : ℚ) * (10 : ℚ) ^ specExponent (data.getD 4 0) *
        specSign (data.getD 4 0),
       UNITS.lookup (data.getD 2 0)) := by
  have h2 : 2 < data.length := by omega
  have h4 : 4 < data.length := by omega
  have hU : data[2]? = some (data.getD 2 0) := getD_some h2
  have hE : data[4]? = some (data.getD 4 0) := getD_some h4
  have hM := mapM_getElem_range L 5 data (by omega)
  simp only [decode_value, hU, hL, hE, hM, Option.bind_eq_bind, Option.some_bind]
  congr 1
  congr 1
  have hzero : (0 : ℚ) = ((0 : ℕ) : ℚ) := by norm_num
  rw [hzero, foldl_q_beNat]
  show ((beNat ((data.drop 5).take L) : ℚ)) *
      (if data.getD 4 0 &&& 0x80 ≠ 0 then
        -((10 : ℚ) ^ (if data.getD 4 0 &&& 0x40 ≠ 0 then
            -(data.getD 4 0 &&& 0x3F : ℕ) else (data.getD 4 0 &&& 0x3F : ℕ) : ℤ))
      else (10 : ℚ) ^ (if data.getD 4 0 &&& 0x40 ≠ 0 then
            -(data.getD 4 0 &&& 0x3F : ℕ) else (data.getD 4 0 &&& 0x3F : ℕ) : ℤ)) = _
  unfold specExponent specSign
  by_cases h80 : data.getD 4 0 &&& 0x80 ≠ 0
  · rw [if_pos h80, if_pos h80]
    ring
  · rw [if_neg h80, if_neg h80]
    ring

/-- Witness for C4 at the spec's example record: length byte 3, exponent
byte `0x02`, mantissa `[0x00, 0x01, 0x2C]` (300) decodes to
`300 * 10^2 = 30000` with the unit looked up from byte 2. -/
theorem c4_witness :
    decode_value [0, 0, 0x16, 3, 0x02, 0x00, 0x01, 0x2C] =
      some ((beNat (([0, 0, 0x16, 3, 0x02, 0x00, 0x01, 0x2C].drop 5).take 3) : ℚ) *
        (10 : ℚ) ^ specExponent 0x02 * specSign 0x02, UNITS.lookup 0x16) ∧
    (beNat (([0, 0, 0x16, 3, 0x02, 0x00, 0x01, 0x2C].drop 5).take 3) : ℚ) *
        (10 : ℚ) ^ specExponent 0x02 * specSign 0x02 = 30000 ∧
    UNITS.lookup 0x16 = some "m3" := by
  refine ⟨c4_decode_value [0, 0, 0x16, 3, 0x02, 0x00, 0x01, 0x2C] 3 rfl (by norm_num), ?_, rfl⟩
  have hb : beNat (([0, 0, 0x16, 3, 0x02, 0x00, 0x01, 0x2C].drop 5).take 3) = 300 := by
    decide
  have he : specExponent 0x02 = 2 := by decide
  have hs : specSign 0x02 = 1 := by
    unfold specSign
    rw [if_neg (by decide)]
  rw [hb, he, hs]
  norm_num

/-! ## Register reads (`Kamstrup.read_registers`)

Python source (kamstrup.py):
```
registers = registers[:8]
req = [0x3F, 0x10, len(registers)]
for r in registers:
    req.extend([r >> 8, r & 0xFF])
await self._send(tuple(req))

data = await self._receive()
if data is None or len(data) < 3 or data[0] != 0x3F or data[1] != 0x10:
    return {}

result = {}
remaining = data[2:]
for reg in registers:
    if len(remaining) < 6:
        break
    if remaining[0] == reg >> 8 and remaining[1] == reg & 0xFF:
        value, unit = self._decode_value(remaining)
        result[reg] = (value, unit)
        remaining = remaining[5 + remaining[3] :]
    else:
        result[reg] = (None, None)
return result
```
The transport is abstracted: the decoded response frame (`None` or a
payload) is a parameter, and a Python exception escaping the function
(an `IndexError` inside `_decode_value`) is `Except.error`. -/

/-- One register's result: `(value, unit)`, each possibly `None`. -/
abbrev RegV := Option ℚ × Option String

/-- The request payload `read_registers` builds (truncation to 8 happens
before encoding). -/
def read_request (registers : List Nat) : List Nat :=
  (registers.take 8).foldl (fun req r => req ++ [r >>> 8, r &&& 0xFF])
    [0x3F, 0x10, (registers.take 8).length]

/-- The response-walking loop of `read_registers`, over the remaining
response bytes. -/
def walkRecords : List Nat → List Nat → Except Unit (List (Nat × RegV))
  | [], _ => .ok []
  | reg :: rest, remaining =>
    if remaining.length < 6 then .ok []
    else if remaining.getD 0 0 = reg >>> 8 ∧ remaining.getD 1 0 = reg &&& 0xFF then
      match decode_value remaining with
      | none => .error ()
      | some vu =>
        match walkRecords rest (remaining.drop (5 + remaining.getD 3 0)) with
        | .error e => .error e
        | .ok tail => .ok ((reg, (some vu.1, vu.2)) :: tail)
    else
      match walkRecords rest remaining with
      | .error e => .error e
      | .ok tail => .ok ((reg, (none, none)) :: tail)

/-- `Kamstrup.read_registers`, as a pure function of the register list and
the decoded response frame. -/
def read_registers (registers : List Nat) (response : Option (List Nat)) :
    Except Unit (List (Nat × RegV)) :=
  match response with
  | none => .ok []
  | some data =>
    if data.length < 3 ∨ data.getD 0 0 ≠ 0x3F ∨ data.getD 1 0 ≠ 0x10 then .ok []
    else walkRecords (registers.take 8) (data.drop 2)

theorem foldl_extend_eq_flatMap : ∀ (rs init : List Nat),
    rs.foldl (fun req r => req ++ [r >>> 8, r &&& 0xFF]) init =
      init ++ rs.flatMap (fun r => [r / 256, r % 256]) := by
  intro rs
  induction rs with
  | nil => intro init; simp
  | cons r rest ih =>
    intro init
    have hsh : r >>> 8 = r / 256 := by
      rw [Nat.shiftRight_eq_div_pow]
    have hand : r &&& 0xFF = r % 256 := by
      have e : (0xFF : Nat) = 2 ^ 8 - 1 := by norm_num
      rw [e, Nat.and_pow_two_sub_one_eq_mod]
    simp only [List.foldl_cons, List.flatMap_cons, hsh, hand, ih,
      List.append_assoc]

/-- C8: `read_registers` encodes a request for at most the first 8
register ids (truncating at this boundary before encoding); the logical
request payload is exactly `0x3F, 0x10`, a count byte equal to the number
of truncated registers, then each register id as two big-endian bytes
(high byte, then low byte) in input order. -/
theorem c8_read_request (registers : List Nat) :
    read_request registers =
      [0x3F, 0x10, min registers.length 8] ++
        (registers.take 8).flatMap (fun r => [r / 256, r % 256]) := by
  unfold read_request
  rw [foldl_extend_eq_flatMap]
  have : (registers.take 8).length = min registers.length 8 := by
    rw [List.length_take, Nat.min_comm]
  rw [this]

/-- C9: if there is no response frame, or the decoded response's first two
bytes do not echo the command codes `0x3F, 0x10`, `read_registers` returns
an empty result mapping without raising an error. -/
theorem c9_empty_on_bad_response (registers : List Nat)
    (response : Option (List Nat))
    (h : response = none ∨ ∃ data, response = some data ∧
      (data.getD 0 0 ≠ 0x3F ∨ data.getD 1 0 ≠ 0x10)) :
    read_registers registers response = .ok [] := by
  rcases h with h | ⟨data, rfl, h⟩
  · rw [h]
    rfl
  · show (if data.length < 3 ∨ data.getD 0 0 ≠ 0x3F ∨ data.getD 1 0 ≠ 0x10
        then (Except.ok [] : Except Unit (List (Nat × RegV)))
        else walkRecords (registers.take 8) (data.drop 2)) = Except.ok []
    rcases h with h | h
    · rw [if_pos (Or.inr (Or.inl h))]
    · rw [if_pos (Or.inr (Or.inr h))]

/-- Witness for C9: no response, and a response echoing the wrong command
byte, both produce the empty mapping. -/
theorem c9_witness :
    read_registers [100] none = .ok [] ∧
      read_registers [100] (some [0x3E, 0x10, 0]) = .ok [] :=
  ⟨c9_empty_on_bad_response [100] none (Or.inl rfl),
   c9_empty_on_bad_response [100] (some [0x3E, 0x10, 0])
     (Or.inr ⟨[0x3E, 0x10, 0], rfl, Or.inl (by decide)⟩)⟩

theorem walkRecords_keys : ∀ (regs remaining : List Nat) (res : List (Nat × RegV)),
    walkRecords regs remaining = .ok res → List.Sublist (res.map Prod.fst) regs := by
  intro regs
  induction regs with
  | nil =>
    intro remaining res h
    unfold walkRecords at h
    cases h
    simp
  | cons reg rest ih =>
    intro remaining res h
    unfold walkRecords at h
    by_cases h6 : remaining.length < 6
    · rw [if_pos h6] at h
      cases h
      simp
    · rw [if_neg h6] at h
      by_cases hm : remaining.getD 0 0 = reg >>> 8 ∧ remaining.getD 1 0 = reg &&& 0xFF
      · rw [if_pos hm] at h
        cases hd : decode_value remaining with
        | none => rw [hd] at h; cases h
        | some vu =>
          rw [hd] at h
          cases hw : walkRecords rest (remaining.drop (5 + remaining.getD 3 0)) with
          | error e => rw [hw] at h; cases h
          | ok tail =>
            rw [hw] at h
            cases h
            exact List.Sublist.cons₂ reg (ih _ tail hw)
      · rw [if_neg hm] at h
        cases hw : walkRecords rest remaining with
        | error e => rw [hw] at h; cases h
        | ok tail =>
          rw [hw] at h
          cases h
          exact List.Sublist.cons₂ reg (ih _ tail hw)

/-! ## Polling coordinator (`KamstrupCoordinator._async_update_data`)

Python source (coordinator.py):
```
if not self._commands:
    return {}
data = {}
failed_counter = 0
chunks = [self._commands[i : i + MULTIPLE_REGISTERS_MAX]
          for i in range(0, len(self._commands), MULTIPLE_REGISTERS_MAX)]
for chunk in chunks:
    try:
        values = await self.client.read_registers(chunk)
    except SerialException as err:
        raise UpdateFailed("Serial connection error") from err
    except Exception as err:
        raise UpdateFailed(f"Error reading registers: {err}") from err
    if values is None:
        failed_counter += len(chunk)
        continue
    for reg in chunk:
        if reg in values:
            value, unit = values[reg]
            data[reg] = {"value": value, "unit": unit}
        else:
            data[reg] = {"value": None, "unit": None}
            failed_counter += 1
if failed_counter == len(self._commands):
    persistent_notification.async_create(...)
return data
```
-/

/-- Modelled from the spec: `const.py` defines `MULTIPLE_REGISTERS_MAX`,
which is not among the sources under verification; the spec fixes the
protocol limit at 8 registers per exchange. -/
def MULTIPLE_REGISTERS_MAX : Nat := 8

/-- The chunk comprehension of `_async_update_data`: consecutive slices of
at most `MULTIPLE_REGISTERS_MAX` commands. -/
def chunksOf8 (xs : List Nat) : List (List Nat) :=
  if h : xs = [] then []
  else xs.take MULTIPLE_REGISTERS_MAX :: chunksOf8 (xs.drop MULTIPLE_REGISTERS_MAX)
termination_by xs.length
decreasing_by
  simp only [List.length_drop]
  have hpos : 0 < xs.length := List.length_pos.mpr h
  unfold MULTIPLE_REGISTERS_MAX
  omega

/-- What one `client.read_registers(chunk)` call can do, as observed by
the coordinator: raise `SerialException`, raise some other exception
independent of the response, or run with a given decoded response frame
(`none` models "no response"). -/
inductive Exchange where
  | serialExc : Exchange
  | otherExc : Exchange
  | response : Option (List Nat) → Exchange

/-- `UpdateFailed`, distinguishing its two raise sites. -/
inductive UpdateError where
  | serial : UpdateError
  | other : UpdateError
deriving DecidableEq

abbrev Snapshot := List (Nat × RegV)

/-- The merge loop of `_async_update_data` for one chunk (second component
counts `failed_counter` increments). -/
def mergeChunk (values : List (Nat × RegV)) (chunk : List Nat)
    (acc : Snapshot × Nat) : Snapshot × Nat :=
  chunk.foldl (fun st reg =>
    match values.lookup reg with
    | some vu => (st.1 ++ [(reg, vu)], st.2)
    | none => (st.1 ++ [(reg, ((none : Option ℚ), (none : Option String)))], st.2 + 1))
    acc

/-- Processing of one chunk: `SerialException` and any other exception
raised by the read abort the cycle as `UpdateFailed`; a returned mapping
is merged.  (The Python `values is None` fallback has no counterpart:
`read_registers` either raises or returns a dictionary, never `None`.) -/
def processChunk (exchange : List Nat → Exchange) (acc : Snapshot × Nat)
    (chunk : List Nat) : Except UpdateError (Snapshot × Nat) :=
  match exchange chunk with
  | .serialExc => .error .serial
  | .otherExc => .error .other
  | .response r =>
    match read_registers chunk r with
    | .error _ => .error .other
    | .ok values => .ok (mergeChunk values chunk acc)

/-- `KamstrupCoordinator._async_update_data`: the returned Boolean records
whether the total-failure notification condition
(`failed_counter == len(commands)`) fired. -/
def updateData (commands : List Nat) (exchange : List Nat → Exchange) :
    Except UpdateError (Snapshot × Bool) :=
  if commands = [] then .ok ([], false)
  else
    match (chunksOf8 commands).foldlM (processChunk exchange) ([], 0) with
    | .error e => .error e
    | .ok st => .ok (st.1, st.2 == commands.length)

/-- Count of snapshot entries whose value is absent. -/
def absentCount (snap : Snapshot) : Nat :=
  (snap.filter (fun p => p.2.1.isNone)).length

theorem chunksOf8_flatten (xs : List Nat) : (chunksOf8 xs).flatten = xs := by
  induction xs using chunksOf8.induct with
  | case1 =>
    rw [chunksOf8]
    rfl
  | case2 xs h ih =>
    rw [chunksOf8, dif_neg h]
    rw [List.flatten_cons, ih, List.take_append_drop]

theorem chunksOf8_nil : chunksOf8 [] = [] := by
  rw [chunksOf8]
  rfl

theorem chunksOf8_cons (xs : List Nat) (h : xs ≠ []) :
    chunksOf8 xs = xs.take 8 :: chunksOf8 (xs.drop 8) := by
  rw [chunksOf8, dif_neg h]
  rfl

theorem chunksOf8_singleton (x : Nat) : chunksOf8 [x] = [[x]] := by
  rw [chunksOf8_cons [x] (by simp)]
  rw [show List.drop 8 [x] = [] from rfl, chunksOf8_nil]
  rfl

theorem mergeChunk_keys : ∀ (chunk : List Nat) (values : List (Nat × RegV))
    (acc : Snapshot × Nat),
    (mergeChunk values chunk acc).1.map Prod.fst = acc.1.map Prod.fst ++ chunk := by
  intro chunk
  induction chunk with
  | nil =>
    intro values acc
    simp [mergeChunk]
  | cons reg rest ih =>
    intro values acc
    show (mergeChunk values rest _).1.map Prod.fst = _
    cases hl : values.lookup reg with
    | some vu =>
      rw [show (mergeChunk values rest
          (match values.lookup reg with
            | some vu => (acc.1 ++ [(reg, vu)], acc.2)
            | none => (acc.1 ++ [(reg, ((none : Option ℚ), (none : Option String)))],
                acc.2 + 1))) = mergeChunk values rest (acc.1 ++ [(reg, vu)], acc.2) by
          rw [hl]]
      rw [ih]
      simp
    | none =>
      rw [show (mergeChunk values rest
          (match values.lookup reg with
            | some vu => (acc.1 ++ [(reg, vu)], acc.2)
            | none => (acc.1 ++ [(reg, ((none : Option ℚ), (none : Option String)))],
                acc.2 + 1))) = mergeChunk values rest
              (acc.1 ++ [(reg, ((none : Option ℚ), (none : Option String)))], acc.2 + 1) by
          rw [hl]]
      rw [ih]
      simp

theorem foldlM_keys : ∀ (chunks : List (List Nat)) (exchange : List Nat → Exchange)
    (acc st : Snapshot × Nat),
    chunks.foldlM (processChunk exchange) acc = .ok st →
    st.1.map Prod.fst = acc.1.map Prod.fst ++ chunks.flatten := by
  intro chunks
  induction chunks with
  | nil =>
    intro exchange acc st h
    cases h
    simp
  | cons c cs ih =>
    intro exchange acc st h
    rw [List.foldlM_cons] at h
    cases hp : processChunk exchange acc c with
    | error e =>
      rw [hp] at h
      cases h
    | ok acc' =>
      rw [hp] at h
      have hkeys := ih exchange acc' st h
      unfold processChunk at hp
      split at hp
      · cases hp
      · cases hp
      · split at hp
        · cases hp
        · cases hp
          rw [hkeys, mergeChunk_keys, List.flatten_cons, List.append_assoc]

/-- In every successfully returned snapshot, the keys are exactly the
registered commands, in order. -/
theorem updateData_keys (commands : List Nat) (exchange : List Nat → Exchange)
    (snap : Snapshot) (b : Bool)
    (h : updateData commands exchange = .ok (snap, b)) :
    snap.map Prod.fst = commands := by
  unfold updateData at h
  by_cases hc : commands = []
  · rw [if_pos hc] at h
    cases h
    rw [hc]
    rfl
  · rw [if_neg hc] at h
    cases hf : (chunksOf8 commands).foldlM (processChunk exchange) ([], 0) with
    | error e => rw [hf] at h; cases h
    | ok st =>
      rw [hf] at h
      cases h
      have := foldlM_keys (chunksOf8 commands) exchange ([], 0) st hf
      rw [this, chunksOf8_flatten]
      rfl

theorem mergeChunk_cons_some (values : List (Nat × RegV)) (reg : Nat) (vu : RegV)
    (rest : List Nat) (acc : Snapshot × Nat) (h : values.lookup reg = some vu) :
    mergeChunk values (reg :: rest) acc =
      mergeChunk values rest (acc.1 ++ [(reg, vu)], acc.2) :=
  calc mergeChunk values (reg :: rest) acc
      = mergeChunk values rest (match values.lookup reg with
          | some vu => (acc.1 ++ [(reg, vu)], acc.2)
          | none => (acc.1 ++ [(reg, ((none : Option ℚ), (none : Option String)))],
              acc.2 + 1)) := rfl
    _ = mergeChunk values rest (acc.1 ++ [(reg, vu)], acc.2) := by rw [h]

theorem mergeChunk_cons_none (values : List (Nat × RegV)) (reg : Nat)
    (rest : List Nat) (acc : Snapshot × Nat) (h : values.lookup reg = none) :
    mergeChunk values (reg :: rest) acc =
      mergeChunk values rest
        (acc.1 ++ [(reg, ((none : Option ℚ), (none : Option String)))], acc.2 + 1) :=
  calc mergeChunk values (reg :: rest) acc
      = mergeChunk values rest (match values.lookup reg with
          | some vu => (acc.1 ++ [(reg, vu)], acc.2)
          | none => (acc.1 ++ [(reg, ((none : Option ℚ), (none : Option String)))],
              acc.2 + 1)) := rfl
    _ = _ := by rw [h]

theorem mergeChunk_count : ∀ (chunk : List Nat) (values : List (Nat × RegV))
    (acc : Snapshot × Nat),
    (mergeChunk values chunk acc).2 =
      acc.2 + (chunk.filter (fun reg => (values.lookup reg).isNone)).length := by
  intro chunk
  induction chunk with
  | nil =>
    intro values acc
    simp [mergeChunk]
  | cons reg rest ih =>
    intro values acc
    cases hl : values.lookup reg with
    | some vu =>
      rw [mergeChunk_cons_some values reg vu rest acc hl, ih]
      have hf : (reg :: rest).filter (fun r => (values.lookup r).isNone) =
          rest.filter (fun r => (values.lookup r).isNone) := by
        simp [List.filter_cons, hl]
      rw [hf]
    | none =>
      rw [mergeChunk_cons_none values reg rest acc hl, ih]
      have hf : (reg :: rest).filter (fun r => (values.lookup r).isNone) =
          reg :: rest.filter (fun r => (values.lookup r).isNone) := by
        simp [List.filter_cons, hl]
      rw [hf]
      simp only [List.length_cons]
      omega

/-- The number of registers of one chunk that its exchange leaves without
an entry in the returned mapping (what `failed_counter` counts for it). -/
def chunkUnresolved (exchange : List Nat → Exchange) (chunk : List Nat) : Nat :=
  match exchange chunk with
  | .response r =>
    match read_registers chunk r with
    | .ok values => (chunk.filter (fun reg => (values.lookup reg).isNone)).length
    | .error _ => 0
  | _ => 0

/-- The total number of registered ids left unresolved by their chunk's
result in a cycle. -/
def unresolvedCount (commands : List Nat) (exchange : List Nat → Exchange) : Nat :=
  ((chunksOf8 commands).map (chunkUnresolved exchange)).sum

theorem foldlM_count : ∀ (chunks : List (List Nat)) (exchange : List Nat → Exchange)
    (acc st : Snapshot × Nat),
    chunks.foldlM (processChunk exchange) acc = .ok st →
    st.2 = acc.2 + (chunks.map (chunkUnresolved exchange)).sum := by
  intro chunks
  induction chunks with
  | nil =>
    intro exchange acc st h
    cases h
    simp
  | cons c cs ih =>
    intro exchange acc st h
    rw [List.foldlM_cons] at h
    cases hp : processChunk exchange acc c with
    | error e =>
      rw [hp] at h
      cases h
    | ok acc' =>
      rw [hp] at h
      have hcount := ih exchange acc' st h
      unfold processChunk at hp
      split at hp
      · cases hp
      · cases hp
      · next r hx =>
        split at hp
        · cases hp
        · next values hr =>
          cases hp
          rw [hcount, mergeChunk_count]
          have hcu : chunkUnresolved exchange c =
              (c.filter (fun reg => (values.lookup reg).isNone)).length := by
            unfold chunkUnresolved
            rw [hx]
            show (match read_registers c r with
              | Except.ok values =>
                (c.filter (fun reg => (values.lookup reg).isNone)).length
              | Except.error _ => 0) = _
            rw [hr]
          rw [List.map_cons, List.sum_cons, hcu]
          omega

theorem mergeChunk_nil : ∀ (chunk : List Nat) (acc : Snapshot × Nat),
    mergeChunk [] chunk acc =
      (acc.1 ++ chunk.map (fun reg => (reg, ((none : Option ℚ), (none : Option String)))),
        acc.2 + chunk.length) := by
  intro chunk
  induction chunk with
  | nil =>
    intro acc
    simp [mergeChunk]
  | cons reg rest ih =>
    intro acc
    rw [mergeChunk_cons_none [] reg rest acc rfl, ih]
    simp only [Prod.mk.injEq, List.map_cons, List.length_cons]
    constructor
    · simp
    · omega

theorem foldlM_allnone : ∀ (chunks : List (List Nat)) (exchange : List Nat → Exchange)
    (acc : Snapshot × Nat),
    (∀ chunk ∈ chunks, exchange chunk = .response none) →
    chunks.foldlM (processChunk exchange) acc =
      .ok (acc.1 ++ chunks.flatten.map
          (fun reg => (reg, ((none : Option ℚ), (none : Option String)))),
        acc.2 + chunks.flatten.length) := by
  intro chunks
  induction chunks with
  | nil =>
    intro exchange acc h
    simp only [List.foldlM_nil, List.flatten_nil, List.map_nil, List.append_nil,
      List.length_nil, Nat.add_zero]
    rfl
  | cons c cs ih =>
    intro exchange acc h
    rw [List.foldlM_cons]
    have hc : exchange c = .response none := h c (by simp)
    have hpc : processChunk exchange acc c = .ok (mergeChunk [] c acc) := by
      unfold processChunk
      rw [hc]
      rfl
    rw [hpc]
    show cs.foldlM (processChunk exchange) (mergeChunk [] c acc) = _
    rw [ih exchange _ (fun chunk hm => h chunk (by simp [hm])), mergeChunk_nil]
    simp only [List.flatten_cons, List.map_append, List.length_append,
      Prod.mk.injEq, Except.ok.injEq]
    constructor
    · simp [List.append_assoc]
    · omega

theorem lookup_map_absent : ∀ (commands : List Nat) (reg : Nat), reg ∈ commands →
    (commands.map (fun r => (r, ((none : Option ℚ), (none : Option String))))).lookup reg =
      some ((none : Option ℚ), (none : Option String)) := by
  intro commands
  induction commands with
  | nil =>
    intro reg h
    cases h
  | cons c rest ih =>
    intro reg h
    by_cases hrc : reg = c
    · subst hrc
      simp [List.lookup]
    · have hb : (reg == c) = false := by simp [hrc]
      simp only [List.map_cons, List.lookup, hb]
      rcases List.mem_cons.mp h with h1 | h1
      · exact absurd h1 hrc
      · exact ih reg h1

/-! ## Claims C5, C6, C7, C10 -/

/-- C5: every poll cycle of `_async_update_data` that returns without
raising produces a snapshot containing an entry for every registered id —
registers never resolved (no response for their chunk, or absent from the
chunk's result) appear as keys, never as missing keys, even when every
exchange failed. -/
theorem c5_snapshot_complete (commands : List Nat) (exchange : List Nat → Exchange)
    (snap : Snapshot) (b : Bool)
    (h : updateData commands exchange = .ok (snap, b)) :
    ∀ reg ∈ commands, (snap.lookup reg).isSome := by
  intro reg hreg
  have hk := updateData_keys commands exchange snap b h
  rw [List.lookup_isSome_iff]
  rw [← hk] at hreg
  obtain ⟨p, hp, hfst⟩ := List.mem_map.mp hreg
  exact ⟨p, hp, by simp [hfst]⟩

/-- Witness for C5: one register, every exchange yielding no response; the
returned snapshot still has a (absent-valued) entry for it. -/
theorem c5_witness :
    (([(1, ((none : Option ℚ), (none : Option String)))] : Snapshot).lookup 1).isSome := by
  have hch : chunksOf8 [1] = [[1]] := chunksOf8_singleton 1
  have hup : updateData [1] (fun _ => .response none) =
      .ok ([(1, ((none : Option ℚ), (none : Option String)))], true) := by
    unfold updateData
    rw [if_neg (by decide), hch]
    rfl
  exact c5_snapshot_complete [1] (fun _ => .response none) _ true hup 1 (by decide)

/-- Counterexample for C10's parenthetical that `read_registers` raises
on transport errors only: with the transport delivering a well-formed
response (no transport error anywhere), a record that claims 9 mantissa
bytes while only 1 remains makes `_decode_value` raise an `IndexError`,
which propagates out of `read_registers` — a response-induced, non-
transport raise. -/
theorem c10_counterexample :
    read_registers [100] (some [0x3F, 0x10, 0, 100, 0, 9, 2, 0]) = .error () := by
  rfl

/-- C10 (amended): `read_registers` either raises (on a transport error,
or on any other exception escaping it, such as the `IndexError` an
undecodable record provokes in `_decode_value`) or returns a mapping —
never `None` (enforced by its result type here, matching the Python
function, which returns a dict on every non-raising path); the mapping's
key set is a subset (in fact an ordered sublist) of the first 8 requested
ids, each mapped to a (value, unit) pair; consequently the coordinator's
`values is None` fallback branch is unreachable and the merge loop alone
determines the snapshot's keys: they are exactly the registered ids. -/
theorem c10_read_registers_shape :
    (∀ (regs : List Nat) (resp : Option (List Nat)) (res : List (Nat × RegV)),
      read_registers regs resp = .ok res →
        List.Sublist (res.map Prod.fst) (regs.take 8)) ∧
    (∀ (commands : List Nat) (exchange : List Nat → Exchange) (snap : Snapshot) (b : Bool),
      updateData commands exchange = .ok (snap, b) → snap.map Prod.fst = commands) := by
  constructor
  · intro regs resp res h
    cases resp with
    | none =>
      cases h
      simp
    | some data =>
      have h2 : (if data.length < 3 ∨ data.getD 0 0 ≠ 0x3F ∨ data.getD 1 0 ≠ 0x10
          then (Except.ok [] : Except Unit (List (Nat × RegV)))
          else walkRecords (regs.take 8) (data.drop 2)) = Except.ok res := h
      by_cases hh : data.length < 3 ∨ data.getD 0 0 ≠ 0x3F ∨ data.getD 1 0 ≠ 0x10
      · rw [if_pos hh] at h2
        cases h2
        simp
      · rw [if_neg hh] at h2
        exact walkRecords_keys _ _ _ h2
  · exact updateData_keys

/-- Witness for C10: an empty result's keys are a sublist of the requested
ids, and a one-register cycle's snapshot has exactly that register as its
key. -/
theorem c10_witness :
    List.Sublist (([] : List (Nat × RegV)).map Prod.fst) (([1] : List Nat).take 8) ∧
      ([(1, ((none : Option ℚ), (none : Option String)))] : Snapshot).map Prod.fst = [1] := by
  have hch : chunksOf8 [1] = [[1]] := chunksOf8_singleton 1
  have hup : updateData [1] (fun _ => .response none) =
      .ok ([(1, ((none : Option ℚ), (none : Option String)))], true) := by
    unfold updateData
    rw [if_neg (by decide), hch]
    rfl
  exact ⟨c10_read_registers_shape.1 [1] none [] rfl,
    c10_read_registers_shape.2 [1] (fun _ => .response none) _ true hup⟩

/-- Counterexample for C6: one register whose chunk result explicitly maps
it to `(None, None)` (command echo fine, register id mismatch in the
record).  Every snapshot entry has an absent value — the count of absent
entries equals the number of registered ids — yet the notification
condition does not fire (`failed_counter` stayed 0), contradicting the
claimed "if and only if". -/
theorem c6_counterexample :
    updateData [100] (fun _ => .response (some [0x3F, 0x10, 0, 99, 0, 0, 0, 0])) =
      .ok ([(100, ((none : Option ℚ), (none : Option String)))], false) ∧
    absentCount [(100, ((none : Option ℚ), (none : Option String)))] =
      ([100] : List Nat).length := by
  constructor
  · have hch : chunksOf8 [100] = [[100]] := chunksOf8_singleton 100
    unfold updateData
    rw [if_neg (by decide), hch]
    rfl
  · rfl

/-- C6 (amended): at the end of a poll cycle over a non-empty registry,
the total-failure notification fires if and only if the number of
registered ids left unresolved by their chunk's result (absent from the
returned mapping — ids the chunk explicitly maps to an absent
`(None, None)` value count as resolved) equals the total number of
registered ids; no error is raised in that case.  In particular, when
every chunk's exchange returns no response, the cycle returns the
all-absent snapshot with the notification signaled. -/
theorem c6_amended :
    (∀ (commands : List Nat) (exchange : List Nat → Exchange) (snap : Snapshot) (b : Bool),
      commands ≠ [] → updateData commands exchange = .ok (snap, b) →
      (b = true ↔ unresolvedCount commands exchange = commands.length)) ∧
    (∀ (commands : List Nat) (exchange : List Nat → Exchange),
      commands ≠ [] →
      (∀ chunk ∈ chunksOf8 commands, exchange chunk = .response none) →
      updateData commands exchange =
        .ok (commands.map (fun reg => (reg, ((none : Option ℚ), (none : Option String)))),
          true)) := by
  constructor
  · intro commands exchange snap b hne h
    unfold updateData at h
    rw [if_neg hne] at h
    cases hf : (chunksOf8 commands).foldlM (processChunk exchange) ([], 0) with
    | error e =>
      rw [hf] at h
      cases h
    | ok st =>
      rw [hf] at h
      cases h
      have hc := foldlM_count (chunksOf8 commands) exchange ([], 0) st hf
      unfold unresolvedCount
      rw [hc]
      simp
  · intro commands exchange hne hall
    unfold updateData
    rw [if_neg hne, foldlM_allnone _ _ _ hall]
    simp only [chunksOf8_flatten, List.nil_append, Nat.zero_add]
    rw [show (commands.length == commands.length) = true by simp]

/-- Witness for C6 (amended), applying both parts at concrete cycles: the
explicit-`(None, None)` cycle does not notify, and the all-no-response
cycle notifies with the all-absent snapshot. -/
theorem c6_witness :
    ((false = true) ↔
      unresolvedCount [100] (fun _ => .response (some [0x3F, 0x10, 0, 99, 0, 0, 0, 0])) =
        ([100] : List Nat).length) ∧
    updateData [1] (fun _ => .response none) =
      .ok ([(1, ((none : Option ℚ), (none : Option String)))], true) := by
  have hch : chunksOf8 [100] = [[100]] := chunksOf8_singleton 100
  have hup : updateData [100] (fun _ => .response (some [0x3F, 0x10, 0, 99, 0, 0, 0, 0])) =
      .ok ([(100, ((none : Option ℚ), (none : Option String)))], false) := by
    unfold updateData
    rw [if_neg (by decide), hch]
    rfl
  constructor
  · exact c6_amended.1 [100] _ _ false (by decide) hup
  · exact c6_amended.2 [1] (fun _ => .response none) (by decide) (fun chunk hm => rfl)

/-- A chunk whose read raises: a serial exception, another exception, or a
response on which `read_registers` itself raises. -/
def chunkFails (exchange : List Nat → Exchange) (chunk : List Nat) : Prop :=
  exchange chunk = .serialExc ∨ exchange chunk = .otherExc ∨
    ∃ r, exchange chunk = .response r ∧ read_registers chunk r = .error ()

theorem processChunk_error_iff (exchange : List Nat → Exchange) (acc : Snapshot × Nat)
    (chunk : List Nat) :
    (∃ e, processChunk exchange acc chunk = .error e) ↔ chunkFails exchange chunk := by
  unfold processChunk chunkFails
  cases hx : exchange chunk with
  | serialExc =>
    constructor
    · intro _
      exact Or.inl rfl
    · intro _
      exact ⟨.serial, rfl⟩
  | otherExc =>
    constructor
    · intro _
      exact Or.inr (Or.inl rfl)
    · intro _
      exact ⟨.other, rfl⟩
  | response r =>
    cases hr : read_registers chunk r with
    | error u =>
      constructor
      · intro _
        refine Or.inr (Or.inr ⟨r, rfl, ?_⟩)
        cases u
        exact hr
      · intro _
        refine ⟨.other, ?_⟩
        show (match read_registers chunk r with
          | Except.error _ => (Except.error UpdateError.other : Except UpdateError (Snapshot × Nat))
          | Except.ok values => Except.ok (mergeChunk values chunk acc)) = _
        rw [hr]
    | ok values =>
      constructor
      · rintro ⟨e, he⟩
        have he2 : (match read_registers chunk r with
            | Except.error _ =>
              (Except.error UpdateError.other : Except UpdateError (Snapshot × Nat))
            | Except.ok values => Except.ok (mergeChunk values chunk acc)) =
            Except.error e := he
        rw [hr] at he2
        cases he2
      · rintro (h | h | ⟨r', hr', hread⟩)
        · cases h
        · cases h
        · injection hr' with h'
          subst h'
          rw [hr] at hread
          cases hread

theorem foldlM_error_iff : ∀ (chunks : List (List Nat)) (exchange : List Nat → Exchange)
    (acc : Snapshot × Nat),
    (∃ e, chunks.foldlM (processChunk exchange) acc = .error e) ↔
      ∃ chunk ∈ chunks, chunkFails exchange chunk := by
  intro chunks
  induction chunks with
  | nil =>
    intro exchange acc
    constructor
    · rintro ⟨e, he⟩
      cases he
    · rintro ⟨chunk, hm, _⟩
      cases hm
  | cons c cs ih =>
    intro exchange acc
    rw [List.foldlM_cons]
    cases hp : processChunk exchange acc c with
    | error e =>
      constructor
      · intro _
        exact ⟨c, by simp, (processChunk_error_iff exchange acc c).mp ⟨e, hp⟩⟩
      · intro _
        exact ⟨e, rfl⟩
    | ok acc' =>
      have hnf : ¬ chunkFails exchange c := by
        intro hcf
        obtain ⟨e, he⟩ := (processChunk_error_iff exchange acc c).mpr hcf
        rw [hp] at he
        cases he
      constructor
      · rintro ⟨e, he⟩
        obtain ⟨chunk, hm, hcf⟩ := (ih exchange acc').mp ⟨e, he⟩
        exact ⟨chunk, by simp [hm], hcf⟩
      · rintro ⟨chunk, hm, hcf⟩
        rcases List.mem_cons.mp hm with rfl | hm'
        · exact absurd hcf hnf
        · obtain ⟨e, he⟩ := (ih exchange acc').mpr ⟨chunk, hm', hcf⟩
          exact ⟨e, he⟩

/-- Counterexample for C7: the cycle aborts with `UpdateFailed` although
no transport-level connection error ever occurs — the chunk's response
echoes the command and matches the register, but its record claims 9
mantissa bytes while only 1 remains, so `_decode_value` raises an
`IndexError`, which the coordinator's catch-all converts into a raised
cycle failure instead of an absent value. -/
theorem c7_counterexample :
    updateData [100] (fun _ => .response (some [0x3F, 0x10, 0, 100, 0, 9, 2, 0])) =
      .error UpdateError.other := by
  have hch : chunksOf8 [100] = [[100]] := chunksOf8_singleton 100
  unfold updateData
  rw [if_neg (by decide), hch]
  rfl

/-- C7 (amended): a poll cycle aborts with a raised failure if and only if
some chunk's read raises — a transport-level serial error, any other
exception, or a response whose records cannot be decoded (an undecodable
record aborts the cycle rather than resolving to an absent value);
byte-read timeouts, CRC/framing failures and command-echo mismatches
(all modelled as "no response" or a rejected response) never make a chunk
fail and resolve into absent values within a returned snapshot. -/
theorem c7_amended (commands : List Nat) (exchange : List Nat → Exchange) :
    (∃ e, updateData commands exchange = .error e) ↔
      ∃ chunk ∈ chunksOf8 commands, chunkFails exchange chunk := by
  unfold updateData
  by_cases hc : commands = []
  · subst hc
    rw [if_pos rfl]
    constructor
    · rintro ⟨e, he⟩
      cases he
    · rintro ⟨chunk, hm, _⟩
      rw [chunksOf8_nil] at hm
      cases hm
  · rw [if_neg hc]
    cases hf : (chunksOf8 commands).foldlM (processChunk exchange) ([], 0) with
    | error e =>
      constructor
      · intro _
        exact (foldlM_error_iff _ _ _).mp ⟨e, hf⟩
      · intro _
        exact ⟨e, rfl⟩
    | ok st =>
      constructor
      · rintro ⟨e, he⟩
        cases he
      · intro hcf
        obtain ⟨e, he⟩ := (foldlM_error_iff _ _ _).mpr hcf
        rw [he] at hf
        cases hf

end Kamstrup403
